import Mathlib

/-!
Verification development for the NCERT revision tool's retrieval-and-scoring
pipeline (`rag_retriever.py` and the submit-answer handler of `app.py`).

Modelling conventions:
* Python floats are modelled as exact real numbers (`ℝ`).
* The external embedding service (`FileRAGRetriever._embed`, which catches all
  exceptions and returns `None` on failure) is modelled as an oracle
  `embed : String → Option (List ℝ)`; `none` is a failed embedding call.
* The external generation service is an oracle `String → Except String String`;
  `Except.error` models the call raising an exception.
* Python's `while` loop in `chunk_text` is modelled by a fuel-indexed loop
  over an `Int` index; `none` means the loop has not finished within the
  given fuel bound.  A result of `none` for every fuel bound is exactly
  non-termination of the source loop.
* `str.split()` / `str.strip()` are modelled by structural recursion over the
  character list, with Python's notion of whitespace.
-/

namespace NCERT

/-- Whitespace test used by Python's `str.split()` and `str.strip()`. -/
def isSpace (c : Char) : Bool :=
  c = ' ' || c = '\t' || c = '\n' || c = '\r' || c = '\x0b' || c = '\x0c'

/-- Accumulator-based splitter: splits a character stream into maximal runs of
non-whitespace characters.  `acc` holds the current word, reversed. -/
def splitWordsAux : List Char → List Char → List String
  | [], acc => if acc.isEmpty then [] else [acc.reverse.asString]
  | c :: cs, acc =>
    if isSpace c then
      if acc.isEmpty then splitWordsAux cs [] else acc.reverse.asString :: splitWordsAux cs []
    else
      splitWordsAux cs (c :: acc)

/-- Model of Python's `text.split()` (no separator argument): split on runs of
whitespace, dropping empty strings. -/
def pySplit (s : String) : List String :=
  splitWordsAux s.data []

/-- Model of Python's `" ".join(ws)`. -/
def joinSpace (ws : List String) : String :=
  " ".intercalate ws

/-- Model of Python's `str.strip()`: remove leading and trailing whitespace. -/
def pyStrip (s : String) : String :=
  (((s.data.dropWhile isSpace).reverse.dropWhile isSpace).reverse).asString

/-- Resolution of one Python slice endpoint against a list of length `n`:
negative indices count from the end, and endpoints are clamped to `[0, n]`. -/
def sliceIdx (n : Nat) (a : Int) : Nat :=
  if a < 0 then ((n : Int) + a).toNat else min a.toNat n

/-- Model of Python's slice `xs[a:b]`. -/
def pySlice {α : Type} (xs : List α) (a b : Int) : List α :=
  (xs.take (sliceIdx xs.length b)).drop (sliceIdx xs.length a)

/-- Model of Python's prefix slice `xs[:b]`. -/
def pySliceTo {α : Type} (xs : List α) (b : Int) : List α :=
  xs.take (sliceIdx xs.length b)

/-- Fuel-indexed model of the `while i < len(words)` loop of `chunk_text`
(`rag_retriever.py`, lines 26–36).  Each fuel unit allows one loop iteration;
`none` means the loop is still running when the fuel runs out, so a result of
`none` for every fuel bound is non-termination of the source loop.  The loop
body forms `" ".join(words[i:i+chunk_size])`, appends it if non-empty, and
advances `i` by `chunk_size - overlap` (an `Int`, as in Python, so the index
can fail to advance or even go backwards). -/
def chunkLoop (words : List String) (chunk_size overlap : Int) :
    Nat → Int → Option (List String)
  | 0, i => if i < (words.length : Int) then none else some []
  | fuel + 1, i =>
    if i < (words.length : Int) then
      let chunk := joinSpace (pySlice words i (i + chunk_size))
      match chunkLoop words chunk_size overlap fuel (i + chunk_size - overlap) with
      | none => none
      | some rest => some (if chunk = "" then rest else chunk :: rest)
    else some []

/-- Model of `chunk_text(text, chunk_size, overlap)` (`rag_retriever.py`,
lines 26–36): split `text` into words and run the chunking loop from `i = 0`.
The fuel `(pySplit text).length + 1` bounds the iteration count of every
terminating run (the index advances by at least one word per iteration
whenever `overlap < chunk_size`), so `none` occurs exactly when the source
loop does not terminate. -/
def chunk_text (text : String) (chunk_size overlap : Int) : Option (List String) :=
  chunkLoop (pySplit text) chunk_size overlap ((pySplit text).length + 1) 0

/-- Word-level view of the chunking loop: the successive windows
`words[i : i + chunk_size]` as word lists (defined for `0 ≤ overlap < chunk_size`,
where the index stays a natural number). -/
def windowsLoop (words : List String) (chunk_size overlap : Nat) :
    Nat → Nat → List (List String)
  | 0, _ => []
  | fuel + 1, i =>
    if i < words.length then
      (words.drop i).take chunk_size ::
        windowsLoop words chunk_size overlap fuel (i + (chunk_size - overlap))
    else []

/-- Word-level windows produced by `chunk_text text chunk_size overlap`. -/
def chunkWindows (text : String) (chunk_size overlap : Nat) : List (List String) :=
  windowsLoop (pySplit text) chunk_size overlap ((pySplit text).length + 1) 0

/-- Concatenation of the chunks' non-overlapping portions: the first window in
full, then each subsequent window minus its first `overlap` words. -/
def reconstruct (overlap : Nat) : List (List String) → List String
  | [] => []
  | w :: ws => w ++ (ws.map (List.drop overlap)).flatten

/-- Model of `np.dot(a, b)` for 1-d vectors: sum of pointwise products. -/
def dot (a b : List ℝ) : ℝ :=
  (List.zipWith (· * ·) a b).sum

/-- Model of `np.linalg.norm(a)`: square root of the sum of squares. -/
noncomputable def vnorm (a : List ℝ) : ℝ :=
  Real.sqrt (dot a a)

/-- Model of `FileRAGRetriever._cosine_sim` (`rag_retriever.py`, lines 49–54):
if the product of the norms is zero, return the sentinel `-1.0`, otherwise
return `dot(a, b) / (norm(a) * norm(b))`. -/
noncomputable def cosine_sim (a b : List ℝ) : ℝ :=
  if vnorm a * vnorm b = 0 then -1 else dot a b / (vnorm a * vnorm b)

/-- Model of `os.path.basename` for POSIX paths. -/
def basename (p : String) : String :=
  (p.splitOn "/").getLastD ""

/-- One retrieval result, as built in `FileRAGRetriever.retrieve`
(`rag_retriever.py`, lines 89–94): the dict
`{"chunk_id": idx, "filename": ..., "text": chunk, "score": score}`. -/
structure ScoredChunk where
  chunk_id : Nat
  filename : String
  text : String
  score : ℝ

/-- State of a `FileRAGRetriever` instance (`rag_retriever.py`, lines 41–47):
the file path, the embedding model identifier, the chunk list and the parallel
embedding list (an entry is `none` when the embedding call failed). -/
structure FileRAGRetriever where
  filepath : String
  embed_model : String
  chunks : List String
  embeddings : List (Option (List ℝ))

/-- Chunks produced at load time: `chunk_text(text)` with the source defaults
`chunk_size=300`, `overlap=50` (`rag_retriever.py`, line 71). -/
def defaultChunks (text : String) : List String :=
  (chunk_text text 300 50).getD []

/-- Model of `FileRAGRetriever.__init__` / `_load_and_embed_chunks`
(`rag_retriever.py`, lines 41–47 and 65–76) for a readable file: `text` is the
file's content (file reading is external), `embed` is the embedding-service
oracle.  The chunks are `chunk_text(text)` and each chunk is embedded in
order, appending `none` when the call fails. -/
def loadRetriever (embed : String → Option (List ℝ)) (filepath text : String) :
    FileRAGRetriever where
  filepath := filepath
  embed_model := "models/text-embedding-004"
  chunks := defaultChunks text
  embeddings := (defaultChunks text).map embed

/-- Model of the scoring loop of `retrieve` (`rag_retriever.py`, lines 84–94):
`for idx, (chunk, emb) in enumerate(zip(chunks, embeddings))`, skipping pairs
whose embedding is `None` and otherwise appending a scored record.  `idx` is
the running index of `enumerate`. -/
noncomputable def scoreLoop (fp : String) (q_emb : List ℝ) :
    Nat → List (String × Option (List ℝ)) → List ScoredChunk
  | _, [] => []
  | idx, (_, none) :: rest => scoreLoop fp q_emb (idx + 1) rest
  | idx, (chunk, some emb) :: rest =>
    { chunk_id := idx
      filename := basename fp
      text := chunk
      score := cosine_sim q_emb emb } :: scoreLoop fp q_emb (idx + 1) rest

/-- Comparator realising Python's `scored.sort(key=lambda x: x["score"],
reverse=True)`: a stable sort that puts `a` before `b` when
`b.score ≤ a.score`. -/
noncomputable def scoreDesc (a b : ScoredChunk) : Bool :=
  decide (b.score ≤ a.score)

/-- Model of `FileRAGRetriever.retrieve` (`rag_retriever.py`, lines 78–97) as a
state transformer: the method reads but never writes the instance fields, so
the state component is returned unchanged.  The query is embedded (failure
returns `[]`), every chunk with a present embedding is scored against the
query embedding, the scored list is stably sorted descending by score, and the
prefix `scored[:top_k]` is returned. -/
noncomputable def retrieveM (embed : String → Option (List ℝ))
    (r : FileRAGRetriever) (query : String) (top_k : Int) :
    FileRAGRetriever × List ScoredChunk :=
  match embed query with
  | none => (r, [])
  | some q_emb =>
    let scored := scoreLoop r.filepath q_emb 0 (r.chunks.zip r.embeddings)
    let sorted := scored.mergeSort scoreDesc
    (r, pySliceTo sorted top_k)

/-- Numbered passage block of `build_teaching_prompt` (`rag_retriever.py`,
lines 103–105): `f"{i}) {chunk['text']}\n"` for each retrieved chunk. -/
def chunksText (retrieved : List ScoredChunk) : String :=
  (retrieved.enumFrom 1).foldl (fun acc p => acc ++ toString p.1 ++ ") " ++ p.2.text ++ "\n") ""

/-- Model of `FileRAGRetriever.build_teaching_prompt` (`rag_retriever.py`,
lines 99–137): the fixed instructional template with the numbered passages and
the question interpolated, finally stripped of surrounding whitespace. -/
def build_teaching_prompt (query : String) (retrieved : List ScoredChunk) : String :=
  pyStrip ("\n# Identity\nYou are a knowledgeable NCERT Class 7 Social Science teacher who explains concepts clearly and simply to students.\n\n# Instructions\n* Use only the information provided in the \"Passages\" section.\n* Explain concepts in short, clear sentences suitable for a 12-year-old.\n* Use bullet points (•) for clarity.\n* Give one simple real-life example for each explanation.\n* Do not add extra information not in the passages.\n\n# Example\n<user_query>\nWhat is democracy?\n</user_query>\n<assistant_response>\n• Democracy is a system where people choose their leaders.\n• Leaders are elected through voting.\n• Citizens have the right to take part in decision-making.\nExample: In India, citizens vote to choose the Prime Minister.\n</assistant_response>\n\n# Passages\n" ++ chunksText retrieved ++ "\n\n# Question\n" ++ query ++ "\n\n# Answer\n")

/-- Discrete feedback bands of the grading rule. -/
inductive Feedback where
  | correct
  | partialCredit
  | incorrect
  | unscored
deriving DecidableEq

/-- Model of the grading branch of the submit-answer handler (`app.py`,
lines 82–93, identical to `rag_retriever.py`, lines 192–204): an absent
similarity (either embedding call failed) is unscored; otherwise
`sim > 0.85` is correct, `sim > 0.6` is partially correct, and anything else
is incorrect. -/
noncomputable def grade (sim : Option ℝ) : Feedback :=
  match sim with
  | none => .unscored
  | some s => if s > 0.85 then .correct else if s > 0.6 then .partialCredit else .incorrect

/-- One conversation-history entry appended by the submit-answer handler
(`app.py`, lines 96–102).  An absent similarity is stored as `"N/A"` in the
source; it is modelled as `none`. -/
structure Turn where
  question : String
  user_answer : String
  model_answer : String
  feedback : String
  similarity : Option ℝ

/-- User-visible outputs of the submit-answer handler (`st.warning`,
`st.write` of the model answer, the feedback line, `st.info`, `st.error`). -/
inductive Notice where
  | warning (msg : String)
  | modelAnswerShown (msg : String)
  | feedbackShown (msg : String)
  | info (msg : String)
  | error (msg : String)

/-- Result of one submit-answer interaction: the new conversation history,
the notices shown to the user, and the lines written to `responses.log`. -/
structure SubmitResult where
  conversation : List Turn
  notices : List Notice
  log : List String

/-- Similarity-and-feedback computation of the handler (`app.py`,
lines 80–93): embed the user answer and the model answer; if both embeddings
are present, grade their cosine similarity, otherwise report that feedback
could not be computed. -/
noncomputable def feedbackOf (embed : String → Option (List ℝ))
    (user_answer model_answer : String) : Option ℝ × String × List Notice :=
  match embed user_answer, embed model_answer with
  | some user_emb, some model_emb =>
    let sim := cosine_sim user_emb model_emb
    let fb := if sim > 0.85 then "✅ Correct!"
      else if sim > 0.6 then "🟡 Partially correct."
      else "❌ Incorrect or unrelated."
    (some sim, fb, [Notice.feedbackShown fb])
  | _, _ => (none, "Could not compute feedback", [Notice.info "Could not compute feedback for your answer."])

/-- Model of the submit-answer handler of `app.py` (lines 66–107).  The
handler runs when the button is pressed and the stripped answer is non-empty;
it retrieves the top 3 chunks for the current question, returns a warning when
retrieval is empty, and otherwise builds the teaching prompt and calls the
generation service.  If that call raises (`Except.error`), the error is shown
and logged and the conversation is left untouched; otherwise the answer is
graded and one turn is appended to the conversation. -/
noncomputable def submitAnswer (embed : String → Option (List ℝ))
    (gen : String → Except String String) (r : FileRAGRetriever)
    (question user_answer : String) (conversation : List Turn) : SubmitResult :=
  if pyStrip user_answer = "" then
    { conversation := conversation, notices := [], log := [] }
  else
    let results := (retrieveM embed r question 3).2
    if results.isEmpty then
      { conversation := conversation
        notices := [Notice.warning "No relevant chunks found for this question."]
        log := ["Question: " ++ question ++ "\nUser Answer: " ++ user_answer ++
          "\nModel Answer: No relevant chunks found."] }
    else
      let prompt := build_teaching_prompt question results
      match gen prompt with
      | Except.error e =>
        { conversation := conversation
          notices := [Notice.error ("Error generating answer: " ++ e)]
          log := ["ERROR Question: " ++ question ++ "\nError: " ++ e] }
      | Except.ok model_answer =>
        let fb := feedbackOf embed user_answer model_answer
        { conversation := conversation ++
            [{ question := question
               user_answer := user_answer
               model_answer := model_answer
               feedback := fb.2.1
               similarity := fb.1 }]
          notices := Notice.modelAnswerShown model_answer :: fb.2.2
          log := ["Question: " ++ question ++ "\nUser Answer: " ++ user_answer ++
            "\nModel Answer: " ++ model_answer] }

/-! ### Lemmas about the word splitter and space join -/

theorem asString_ne_empty (l : List Char) (h : l ≠ []) : l.asString ≠ "" := by
  intro hcon
  apply h
  have h2 : l.asString.data = ("" : String).data := by rw [hcon]
  have h3 : l.asString.data = l := rfl
  have h4 : ("" : String).data = [] := rfl
  rw [h3, h4] at h2
  exact h2

theorem splitWordsAux_ne_empty (cs : List Char) :
    ∀ acc, ∀ w ∈ splitWordsAux cs acc, w ≠ "" := by
  induction cs with
  | nil =>
    intro acc w hw
    simp only [splitWordsAux] at hw
    split at hw
    · exact absurd hw (List.not_mem_nil w)
    · rename_i hacc
      simp only [List.mem_singleton] at hw
      subst hw
      exact asString_ne_empty _ (by simpa [List.isEmpty_iff] using hacc)
  | cons c cs ih =>
    intro acc w hw
    simp only [splitWordsAux] at hw
    split at hw
    · split at hw
      · exact ih [] w hw
      · rename_i hacc
        rcases List.mem_cons.mp hw with h | h
        · subst h
          exact asString_ne_empty _ (by simpa [List.isEmpty_iff] using hacc)
        · exact ih [] w h
    · exact ih (c :: acc) w hw

theorem pySplit_ne_empty (s : String) : ∀ w ∈ pySplit s, w ≠ "" :=
  splitWordsAux_ne_empty s.data []

theorem intercalate_go_length (s : String) (as : List String) :
    ∀ acc : String, acc.length ≤ (String.intercalate.go acc s as).length := by
  induction as with
  | nil => intro acc; simp [String.intercalate.go]
  | cons a as ih =>
    intro acc
    have h := ih (acc ++ s ++ a)
    simp only [String.intercalate.go]
    refine le_trans ?_ h
    simp [String.length_append]
    omega

theorem joinSpace_ne_empty (x : String) (xs : List String) (hx : x ≠ "") :
    joinSpace (x :: xs) ≠ "" := by
  have hdata : x.data ≠ [] := by
    intro h
    apply hx
    cases x with
    | mk d => exact congrArg String.mk h
  have hlen : 0 < x.length := List.length_pos.mpr hdata
  have hgo : joinSpace (x :: xs) = String.intercalate.go x " " xs := rfl
  have h : x.length ≤ (joinSpace (x :: xs)).length := by
    rw [hgo]
    exact intercalate_go_length " " xs x
  intro hcon
  rw [hcon] at h
  have hz : ("" : String).length = 0 := rfl
  omega

theorem splitWordsAux_no_space (cs : List Char) :
    ∀ acc, (∀ ch ∈ acc, ¬ (isSpace ch = true)) →
      ∀ w ∈ splitWordsAux cs acc, ∀ ch ∈ w.data, ¬ (isSpace ch = true) := by
  induction cs with
  | nil =>
    intro acc hacc w hw
    simp only [splitWordsAux] at hw
    split at hw
    · exact absurd hw (List.not_mem_nil w)
    · simp only [List.mem_singleton] at hw
      subst hw
      intro ch hch
      exact hacc ch (List.mem_reverse.mp (show ch ∈ acc.reverse from hch))
  | cons c cs ih =>
    intro acc hacc w hw
    simp only [splitWordsAux] at hw
    split at hw
    · split at hw
      · exact ih [] (by simp) w hw
      · rcases List.mem_cons.mp hw with h | h
        · subst h
          intro ch hch
          exact hacc ch (List.mem_reverse.mp (show ch ∈ acc.reverse from hch))
        · exact ih [] (by simp) w h
    · rename_i hspace
      refine ih (c :: acc) ?_ w hw
      intro ch hch
      rcases List.mem_cons.mp hch with h | h
      · subst h; exact hspace
      · exact hacc ch h

theorem pySplit_no_space (s : String) :
    ∀ w ∈ pySplit s, ∀ ch ∈ w.data, ¬ (isSpace ch = true) :=
  splitWordsAux_no_space s.data [] (by simp)

theorem splitWordsAux_append_word (u : List Char) (hu : ∀ ch ∈ u, ¬ (isSpace ch = true)) :
    ∀ cs acc, splitWordsAux (u ++ cs) acc = splitWordsAux cs (u.reverse ++ acc) := by
  induction u with
  | nil => intro cs acc; simp
  | cons c u ih =>
    intro cs acc
    have hc : ¬ (isSpace c = true) := hu c (List.mem_cons_self c u)
    have hstep : splitWordsAux ((c :: u) ++ cs) acc = splitWordsAux (u ++ cs) (c :: acc) := by
      simp only [List.cons_append, splitWordsAux, if_neg hc]
      rfl
    rw [hstep, ih (fun ch hch => hu ch (List.mem_cons_of_mem c hch)) cs (c :: acc)]
    congr 1
    simp

theorem intercalate_go_data (as : List String) :
    ∀ acc : String, (String.intercalate.go acc " " as).data =
      acc.data ++ (as.map (fun w => ' ' :: w.data)).flatten := by
  induction as with
  | nil => intro acc; simp [String.intercalate.go]
  | cons a as ih =>
    intro acc
    simp only [String.intercalate.go]
    rw [ih (acc ++ " " ++ a)]
    have hd : (acc ++ " " ++ a).data = acc.data ++ ' ' :: a.data := by
      have h1 : (acc ++ " " ++ a).data = (acc.data ++ [' ']) ++ a.data := rfl
      rw [h1, List.append_assoc]
      rfl
    rw [hd]
    simp

theorem joinSpace_data (x : String) (xs : List String) :
    (joinSpace (x :: xs)).data = x.data ++ (xs.map (fun w => ' ' :: w.data)).flatten := by
  have hgo : joinSpace (x :: xs) = String.intercalate.go x " " xs := rfl
  rw [hgo, intercalate_go_data]

theorem splitWordsAux_flatten (xs : List String)
    (hne : ∀ w ∈ xs, w ≠ "") (hsp : ∀ w ∈ xs, ∀ ch ∈ w.data, ¬ (isSpace ch = true)) :
    ∀ acc : List Char, acc ≠ [] →
      splitWordsAux ((xs.map (fun w => ' ' :: w.data)).flatten) acc =
        acc.reverse.asString :: xs := by
  induction xs with
  | nil =>
    intro acc hacc
    simp only [List.map_nil, List.flatten_nil, splitWordsAux]
    rw [if_neg (by simpa [List.isEmpty_iff] using hacc)]
  | cons y xs ih =>
    intro acc hacc
    have hy : y ≠ "" := hne y (List.mem_cons_self y xs)
    have hydata : y.data ≠ [] := by
      intro h
      apply hy
      cases y with
      | mk d => exact congrArg String.mk h
    simp only [List.map_cons, List.flatten_cons, List.cons_append]
    have hsp' : isSpace ' ' = true := by decide
    simp only [splitWordsAux, if_pos hsp',
      if_neg (show ¬ (acc.isEmpty = true) by simpa [List.isEmpty_iff] using hacc)]
    rw [splitWordsAux_append_word y.data (hsp y (List.mem_cons_self y xs)) _ []]
    rw [List.append_nil]
    rw [ih (fun w hw => hne w (List.mem_cons_of_mem y hw))
        (fun w hw => hsp w (List.mem_cons_of_mem y hw)) y.data.reverse
        (by simpa using hydata)]
    have : y.data.reverse.reverse.asString = y := by
      rw [List.reverse_reverse]
      cases y with
      | mk d => rfl
    rw [this]

theorem pySplit_joinSpace (ws : List String)
    (hne : ∀ w ∈ ws, w ≠ "") (hsp : ∀ w ∈ ws, ∀ ch ∈ w.data, ¬ (isSpace ch = true)) :
    pySplit (joinSpace ws) = ws := by
  cases ws with
  | nil => rfl
  | cons x xs =>
    have hx : x ≠ "" := hne x (List.mem_cons_self x xs)
    have hxdata : x.data ≠ [] := by
      intro h
      apply hx
      cases x with
      | mk d => exact congrArg String.mk h
    unfold pySplit
    rw [joinSpace_data]
    rw [splitWordsAux_append_word x.data (hsp x (List.mem_cons_self x xs)) _ []]
    rw [List.append_nil]
    rw [splitWordsAux_flatten xs (fun w hw => hne w (List.mem_cons_of_mem x hw))
        (fun w hw => hsp w (List.mem_cons_of_mem x hw)) x.data.reverse
        (by simpa using hxdata)]
    have : x.data.reverse.reverse.asString = x := by
      rw [List.reverse_reverse]
      cases x with
      | mk d => rfl
    rw [this]

/-! ### Correspondence between the string-level chunk loop and word windows -/

theorem pySlice_nat (words : List String) (i c : Nat) (hi : i < words.length) :
    pySlice words (i : Int) ((i : Int) + (c : Int)) = (words.drop i).take c := by
  have hic : sliceIdx words.length ((i : Int) + (c : Int)) = min (i + c) words.length := by
    simp only [sliceIdx]
    rw [if_neg (by omega : ¬ ((i : Int) + (c : Int) < 0))]
    omega
  have hii : sliceIdx words.length (i : Int) = i := by
    simp only [sliceIdx]
    rw [if_neg (by omega : ¬ ((i : Int) < 0))]
    omega
  have htake : words.take (min (i + c) words.length) = words.take (i + c) := by
    rcases le_total (i + c) words.length with h | h
    · rw [min_eq_left h]
    · rw [min_eq_right h, List.take_of_length_le (le_refl _), List.take_of_length_le h]
  unfold pySlice
  rw [hic, hii, htake, List.drop_take]
  congr 1
  omega

theorem chunkLoop_eq_windows (words : List String) (c o : Nat) (hc : 0 < c) (ho : o < c)
    (hw : ∀ w ∈ words, w ≠ "") :
    ∀ fuel (i : Nat), words.length ≤ i + fuel →
      chunkLoop words (c : Int) (o : Int) fuel (i : Int) =
        some ((windowsLoop words c o fuel i).map joinSpace) := by
  intro fuel
  induction fuel with
  | zero =>
    intro i hfuel
    have hge : ¬ ((i : Int) < (words.length : Int)) := by omega
    simp [chunkLoop, windowsLoop, hge]
  | succ fuel ih =>
    intro i hfuel
    by_cases hi : i < words.length
    · have hilt : (i : Int) < (words.length : Int) := by exact_mod_cast hi
      have hslice := pySlice_nat words i c hi
      have hcast : (i : Int) + (c : Int) - (o : Int) = ((i + (c - o) : Nat) : Int) := by
        push_cast
        omega
      have hrec := ih (i + (c - o)) (by omega)
      have hwindow : (words.drop i).take c = words[i] :: ((words.drop (i + 1)).take (c - 1)) := by
        have hdrop : words.drop i = words[i] :: words.drop (i + 1) :=
          List.drop_eq_getElem_cons hi
        rw [hdrop]
        cases c with
        | zero => omega
        | succ c' =>
          rw [List.take_succ_cons]
          simp
      have hne : joinSpace ((words.drop i).take c) ≠ "" := by
        rw [hwindow]
        exact joinSpace_ne_empty _ _ (hw _ (List.getElem_mem hi))
      simp only [chunkLoop, windowsLoop, if_pos hilt, if_pos hi, hslice, hcast, hrec]
      simp [hne]
    · have hge : ¬ ((i : Int) < (words.length : Int)) := by omega
      simp [chunkLoop, windowsLoop, hge, hi]

theorem chunk_text_eq_windows (text : String) (c o : Nat) (hc : 0 < c) (ho : o < c) :
    chunk_text text (c : Int) (o : Int) = some ((chunkWindows text c o).map joinSpace) := by
  unfold chunk_text chunkWindows
  exact chunkLoop_eq_windows (pySplit text) c o hc ho (pySplit_ne_empty text)
    ((pySplit text).length + 1) 0 (by omega)

theorem windowsLoop_length_le (words : List String) (c o : Nat) :
    ∀ fuel i, ∀ w ∈ windowsLoop words c o fuel i, w.length ≤ c := by
  intro fuel
  induction fuel with
  | zero => intro i w hw; simp [windowsLoop] at hw
  | succ fuel ih =>
    intro i w hw
    simp only [windowsLoop] at hw
    split at hw
    · rcases List.mem_cons.mp hw with h | h
      · subst h
        exact List.length_take_le c _
      · exact ih _ w h
    · simp at hw

theorem windowsLoop_join_drop (words : List String) (c o : Nat) (ho : o < c) :
    ∀ fuel (i : Nat), words.length ≤ i + fuel →
      ((windowsLoop words c o fuel i).map (List.drop o)).flatten = words.drop (i + o) := by
  intro fuel
  induction fuel with
  | zero =>
    intro i hfuel
    have : words.drop (i + o) = [] := List.drop_eq_nil_of_le (by omega)
    simp [windowsLoop, this]
  | succ fuel ih =>
    intro i hfuel
    by_cases hi : i < words.length
    · have hrec := ih (i + (c - o)) (by omega)
      simp only [windowsLoop, if_pos hi, List.map_cons, List.flatten_cons, hrec]
      rw [List.drop_take]
      rw [show (words.drop i).drop o = words.drop (i + o) from List.drop_drop o i words]
      rw [show i + (c - o) + o = (i + o) + (c - o) by omega]
      rw [show words.drop (i + o + (c - o)) = (words.drop (i + o)).drop (c - o) from
        (List.drop_drop (c - o) (i + o) words).symm]
      exact List.take_append_drop _ _
    · have : words.drop (i + o) = [] := List.drop_eq_nil_of_le (by omega)
      simp [windowsLoop, hi, this]

theorem windowsLoop_reconstruct (words : List String) (c o : Nat) (ho : o < c) :
    ∀ fuel (i : Nat), words.length ≤ i + fuel →
      reconstruct o (windowsLoop words c o fuel i) = words.drop i := by
  intro fuel
  cases fuel with
  | zero =>
    intro i hfuel
    have : words.drop i = [] := List.drop_eq_nil_of_le (by omega)
    simp [windowsLoop, reconstruct, this]
  | succ fuel =>
    intro i hfuel
    by_cases hi : i < words.length
    · have hrec := windowsLoop_join_drop words c o ho fuel (i + (c - o)) (by omega)
      simp only [windowsLoop, if_pos hi, reconstruct, hrec]
      rw [show i + (c - o) + o = i + c by omega]
      rw [show words.drop (i + c) = (words.drop i).drop c from (List.drop_drop c i words).symm]
      exact List.take_append_drop _ _
    · have : words.drop i = [] := List.drop_eq_nil_of_le (by omega)
      simp [windowsLoop, hi, reconstruct, this]

theorem windowsLoop_mem_words (words : List String) (c o : Nat) :
    ∀ fuel i, ∀ w ∈ windowsLoop words c o fuel i, ∀ x ∈ w, x ∈ words := by
  intro fuel
  induction fuel with
  | zero => intro i w hw; simp [windowsLoop] at hw
  | succ fuel ih =>
    intro i w hw x hx
    simp only [windowsLoop] at hw
    split at hw
    · rcases List.mem_cons.mp hw with h | h
      · subst h
        exact List.mem_of_mem_drop (List.mem_of_mem_take hx)
      · exact ih _ w h x hx
    · simp at hw

/-! ### Non-termination of the chunk loop when overlap ≥ chunk_size -/

theorem chunkLoop_nonadvancing_none (words : List String) (c o : Int) (hco : c ≤ o) :
    ∀ fuel (i : Int), i < (words.length : Int) → chunkLoop words c o fuel i = none := by
  intro fuel
  induction fuel with
  | zero => intro i hi; simp [chunkLoop, hi]
  | succ fuel ih =>
    intro i hi
    have hrec : chunkLoop words c o fuel (i + c - o) = none := ih _ (by omega)
    simp [chunkLoop, hi, hrec]

/-!
### Claim C3

The spec demands that `chunk_text` reject `overlap ≥ chunk_size` with a
configuration error.  The source has no such check: for any non-empty text the
index `i` advances by `chunk_size - overlap ≤ 0` each iteration, the loop
guard `i < len(words)` stays true, and the `while` loop never terminates.  The
theorem below shows the fuel-indexed loop is still running after every finite
number of iterations, i.e. the source loop diverges instead of signalling an
error — a bug relative to the documented intent.
-/

/-- C3: for `overlap ≥ chunk_size` and a non-empty text, the chunker neither
signals a configuration error nor returns a chunk sequence: the loop body is
still running after every finite number of iterations (divergence of the
source `while` loop). -/
theorem chunk_text_overlap_ge_diverges (text : String) (c o : Int) (hco : c ≤ o)
    (hne : pySplit text ≠ []) :
    (∀ fuel, chunkLoop (pySplit text) c o fuel 0 = none) ∧ chunk_text text c o = none := by
  have hlen : (0 : Int) < ((pySplit text).length : Int) := by
    have h := List.length_pos.mpr hne
    exact_mod_cast h
  exact ⟨fun fuel => chunkLoop_nonadvancing_none _ c o hco fuel 0 hlen,
    chunkLoop_nonadvancing_none _ c o hco _ 0 hlen⟩

/-- Witness for C3 at the concrete failing input
`chunk_text("a b c", chunk_size=1, overlap=1)`. -/
theorem chunk_text_overlap_ge_diverges_witness :
    (1 : Int) ≤ 1 ∧ pySplit "a b c" ≠ [] ∧ chunk_text "a b c" 1 1 = none :=
  ⟨le_refl 1, by decide,
    (chunk_text_overlap_ge_diverges "a b c" 1 1 (le_refl 1) (by decide)).2⟩

/-!
### Claim C4
-/

/-- C4: for `chunk_size > 0` and `0 ≤ overlap < chunk_size`, `chunk_text`
terminates and returns exactly the space-joined word windows; each window
holds at most `chunk_size` words and splitting a produced chunk recovers its
window (so each chunk has at most `chunk_size` whitespace-delimited words);
the first window in full followed by every later window minus its first
`overlap` words reconstructs the original word sequence; and the empty text
yields the empty chunk sequence. -/
theorem chunk_text_spec (text : String) (c o : Nat) (hc : 0 < c) (ho : o < c) :
    chunk_text text (c : Int) (o : Int) = some ((chunkWindows text c o).map joinSpace) ∧
    (∀ w ∈ chunkWindows text c o, w.length ≤ c ∧ pySplit (joinSpace w) = w) ∧
    reconstruct o (chunkWindows text c o) = pySplit text ∧
    (text = "" → chunk_text text (c : Int) (o : Int) = some []) := by
  refine ⟨chunk_text_eq_windows text c o hc ho, ?_, ?_, ?_⟩
  · intro w hw
    refine ⟨windowsLoop_length_le _ c o _ _ w hw, ?_⟩
    refine pySplit_joinSpace w ?_ ?_
    · intro x hx
      exact pySplit_ne_empty text x (windowsLoop_mem_words _ c o _ _ w hw x hx)
    · intro x hx
      exact pySplit_no_space text x (windowsLoop_mem_words _ c o _ _ w hw x hx)
  · have h := windowsLoop_reconstruct (pySplit text) c o ho ((pySplit text).length + 1) 0
      (by omega)
    simpa [chunkWindows] using h
  · intro h
    subst h
    rw [chunk_text_eq_windows "" c o hc ho]
    have h0 : chunkWindows "" c o = [] := rfl
    rw [h0]
    rfl

/-- Witness for C4 at the concrete input `chunk_text("a b c d e", 2, 1)`. -/
theorem chunk_text_spec_witness :
    0 < 2 ∧ 1 < 2 ∧
    chunk_text "a b c d e" (2 : Int) (1 : Int) =
      some ((chunkWindows "a b c d e" 2 1).map joinSpace) ∧
    reconstruct 1 (chunkWindows "a b c d e" 2 1) = pySplit "a b c d e" :=
  ⟨by decide, by decide, (chunk_text_spec "a b c d e" 2 1 (by decide) (by decide)).1,
    (chunk_text_spec "a b c d e" 2 1 (by decide) (by decide)).2.2.1⟩

/-! ### Lemmas about dot products and cosine similarity -/

theorem dot_self_nonneg (a : List ℝ) : 0 ≤ dot a a := by
  induction a with
  | nil => simp [dot]
  | cons x xs ih =>
    simp only [dot, List.zipWith_cons_cons, List.sum_cons] at ih ⊢
    nlinarith [mul_self_nonneg x]

theorem dot_self_pos (a : List ℝ) (h : ∃ x ∈ a, x ≠ 0) : 0 < dot a a := by
  induction a with
  | nil => simp at h
  | cons x xs ih =>
    have hx2 : 0 ≤ dot xs xs := dot_self_nonneg xs
    have hcons : dot (x :: xs) (x :: xs) = x * x + dot xs xs := by
      simp [dot, List.zipWith_cons_cons]
    rcases h with ⟨y, hy, hy0⟩
    rcases List.mem_cons.mp hy with hh | hh
    · subst hh
      rw [hcons]
      have hyy : 0 < y * y := mul_self_pos.mpr hy0
      linarith
    · have hpos := ih ⟨y, hh, hy0⟩
      rw [hcons]
      nlinarith [mul_self_nonneg x]

theorem dot_comm (a b : List ℝ) : dot a b = dot b a := by
  unfold dot
  rw [List.zipWith_comm_of_comm (· * ·) mul_comm]

theorem cauchy_schwarz_step (x y S A B : ℝ) (hA : 0 ≤ A) (hB : 0 ≤ B)
    (h : S ^ 2 ≤ A * B) : (x * y + S) ^ 2 ≤ (x * x + A) * (y * y + B) := by
  have key : 2 * (x * y) * S ≤ x * x * B + y * y * A := by
    rcases lt_or_eq_of_le hA with hApos | hA0
    · nlinarith [sq_nonneg (x * S - y * A), mul_nonneg (mul_self_nonneg x) (sub_nonneg.mpr h)]
    · rw [← hA0] at h ⊢
      have hS2 : S ^ 2 = 0 := le_antisymm (by nlinarith) (sq_nonneg S)
      have hS : S = 0 := pow_eq_zero_iff (by norm_num : (2 : ℕ) ≠ 0) |>.mp hS2
      rw [hS]
      nlinarith [mul_nonneg (mul_self_nonneg x) hB]
  nlinarith [key, h]

theorem dot_sq_le (a : List ℝ) : ∀ b : List ℝ, (dot a b) ^ 2 ≤ dot a a * dot b b := by
  induction a with
  | nil => intro b; simp [dot]
  | cons x xs ih =>
    intro b
    cases b with
    | nil => simp [dot]
    | cons y ys =>
      have h := ih ys
      have h1 : 0 ≤ dot xs xs := dot_self_nonneg xs
      have h2 : 0 ≤ dot ys ys := dot_self_nonneg ys
      simp only [dot, List.zipWith_cons_cons, List.sum_cons] at h h1 h2 ⊢
      exact cauchy_schwarz_step x y _ _ _ h1 h2 h

theorem vnorm_nonneg (a : List ℝ) : 0 ≤ vnorm a :=
  Real.sqrt_nonneg _

theorem vnorm_mul_self (a : List ℝ) : vnorm a * vnorm a = dot a a :=
  Real.mul_self_sqrt (dot_self_nonneg a)

theorem neg_one_le_cosine_sim (a b : List ℝ) : -1 ≤ cosine_sim a b := by
  unfold cosine_sim
  split
  · exact le_refl (-1)
  · rename_i hne
    have hnn : 0 ≤ vnorm a * vnorm b := mul_nonneg (vnorm_nonneg a) (vnorm_nonneg b)
    have hpos : 0 < vnorm a * vnorm b := lt_of_le_of_ne hnn (Ne.symm hne)
    rw [le_div_iff₀ hpos]
    have hsq : (dot a b) ^ 2 ≤ (vnorm a * vnorm b) ^ 2 := by
      have hexp : (vnorm a * vnorm b) ^ 2 = dot a a * dot b b := by
        rw [mul_pow, pow_two, pow_two, vnorm_mul_self, vnorm_mul_self]
      rw [hexp]
      exact dot_sq_le a b
    nlinarith [sq_nonneg (dot a b + vnorm a * vnorm b)]

/-!
### Claim C5

The operative behaviour holds (sentinel `-1.0` on a zero norm, otherwise the
normalised dot product, and the sentinel never strictly exceeds any cosine
value), but the claim's assertion that `-1.0` is "outside the normal [-1, 1]
range" is false: `-1` is the minimum of that range and is attained by a
legitimate maximally-dissimilar pair such as `[1]` and `[-1]`, which the
spec's own design notes acknowledge.
-/

/-- C5 counterexample: at the concrete zero-norm input `([0], [0])` the
sentinel `-1.0` is returned, yet `-1.0` is not outside the interval
`[-1, 1]`, and the valid pair `([1], [-1])` attains exactly the same score,
so the sentinel can tie with (rather than always lose to) a valid ranking
score. -/
theorem cosine_sentinel_in_range :
    cosine_sim [(0 : ℝ)] [(0 : ℝ)] = -1 ∧
    ¬ (cosine_sim [(0 : ℝ)] [(0 : ℝ)] < -1 ∨ 1 < cosine_sim [(0 : ℝ)] [(0 : ℝ)]) ∧
    cosine_sim [(1 : ℝ)] [(-1 : ℝ)] = -1 := by
  have hv0 : vnorm [(0 : ℝ)] = 0 := by
    simp [vnorm, dot]
  have h1 : cosine_sim [(0 : ℝ)] [(0 : ℝ)] = -1 := by
    unfold cosine_sim
    rw [hv0]
    simp
  have hv1 : vnorm [(1 : ℝ)] = 1 := by
    simp [vnorm, dot]
  have hvm : vnorm [(-1 : ℝ)] = 1 := by
    simp [vnorm, dot]
  refine ⟨h1, by rw [h1]; norm_num, ?_⟩
  unfold cosine_sim
  rw [hv1, hvm]
  have hd : dot [(1 : ℝ)] [(-1 : ℝ)] = -1 := by
    simp [dot]
  rw [hd]
  norm_num

/-- C5 (amended): for every pair of vectors of equal length — the regime of
the original claim, within which `np.dot` is defined — if either vector has
zero norm, `cosine_sim` returns the sentinel `-1.0`; otherwise it returns
`dot(a,b) / (norm(a) * norm(b))`; and the sentinel is the minimum of the
cosine range — no such pair ever scores strictly below it, so the sentinel
never strictly exceeds a valid score and never crosses a positive grading
threshold. -/
theorem cosine_sim_spec (a b : List ℝ) (hlen : a.length = b.length) :
    ((vnorm a = 0 ∨ vnorm b = 0) → cosine_sim a b = -1) ∧
    (vnorm a ≠ 0 → vnorm b ≠ 0 → cosine_sim a b = dot a b / (vnorm a * vnorm b)) ∧
    (-1 ≤ cosine_sim a b) := by
  refine ⟨?_, ?_, neg_one_le_cosine_sim a b⟩
  · intro h
    have hz : vnorm a * vnorm b = 0 := by
      rcases h with h | h
      · rw [h, zero_mul]
      · rw [h, mul_zero]
    unfold cosine_sim
    rw [if_pos hz]
  · intro ha hb
    unfold cosine_sim
    rw [if_neg (mul_ne_zero ha hb)]

/-- Witness for C5 (amended) at concrete equal-length inputs: the zero vector
`[0]` triggers the sentinel branch and the pair `([1], [1])` takes the formula
branch. -/
theorem cosine_sim_spec_witness :
    [(1 : ℝ)].length = [(0 : ℝ)].length ∧
    (vnorm [(1 : ℝ)] = 0 ∨ vnorm [(0 : ℝ)] = 0) ∧ cosine_sim [(1 : ℝ)] [(0 : ℝ)] = -1 ∧
    vnorm [(1 : ℝ)] ≠ 0 ∧
    cosine_sim [(1 : ℝ)] [(1 : ℝ)] =
      dot [(1 : ℝ)] [(1 : ℝ)] / (vnorm [(1 : ℝ)] * vnorm [(1 : ℝ)]) := by
  have hv0 : vnorm [(0 : ℝ)] = 0 := by simp [vnorm, dot]
  have hv1 : vnorm [(1 : ℝ)] = 1 := by simp [vnorm, dot]
  have hne : vnorm [(1 : ℝ)] ≠ 0 := by rw [hv1]; norm_num
  exact ⟨rfl, Or.inr hv0, (cosine_sim_spec [(1 : ℝ)] [(0 : ℝ)] rfl).1 (Or.inr hv0), hne,
    (cosine_sim_spec [(1 : ℝ)] [(1 : ℝ)] rfl).2.1 hne hne⟩

/-!
### Claim C9
-/

/-- C9: `cosine_sim a a = 1` for every non-zero vector `a`, and `cosine_sim`
is symmetric for vectors of equal length (including the degenerate sentinel
case, whose condition is symmetric in the two arguments). -/
theorem cosine_sim_self_symm :
    (∀ a : List ℝ, (∃ x ∈ a, x ≠ 0) → cosine_sim a a = 1) ∧
    (∀ a b : List ℝ, a.length = b.length → cosine_sim a b = cosine_sim b a) := by
  constructor
  · intro a ha
    have hpos := dot_self_pos a ha
    unfold cosine_sim
    rw [vnorm_mul_self, if_neg (ne_of_gt hpos)]
    exact div_self (ne_of_gt hpos)
  · intro a b _
    unfold cosine_sim
    rw [mul_comm (vnorm a) (vnorm b), dot_comm a b]

/-- Witness for C9 at the concrete non-zero vector `[1, 2]` and the pair
`([1, 2], [3, 4])`. -/
theorem cosine_sim_self_symm_witness :
    (∃ x ∈ [(1 : ℝ), 2], x ≠ 0) ∧ cosine_sim [(1 : ℝ), 2] [(1 : ℝ), 2] = 1 ∧
    [(1 : ℝ), 2].length = [(3 : ℝ), 4].length ∧
    cosine_sim [(1 : ℝ), 2] [(3 : ℝ), 4] = cosine_sim [(3 : ℝ), 4] [(1 : ℝ), 2] :=
  ⟨⟨1, by norm_num, one_ne_zero⟩,
    cosine_sim_self_symm.1 [(1 : ℝ), 2] ⟨1, by norm_num, one_ne_zero⟩, rfl,
    cosine_sim_self_symm.2 [(1 : ℝ), 2] [(3 : ℝ), 4] rfl⟩

/-!
### Claim C2
-/

/-- C2: the grading rule maps an absent similarity to unscored, a similarity
strictly above 0.85 to correct, one strictly above 0.6 and at most 0.85 to
partially correct, and one at most 0.6 to incorrect; in particular both
thresholds are exclusive on the upper band: `grade 0.85` is partially correct
and `grade 0.6` is incorrect. -/
theorem grade_some (s : ℝ) :
    grade (some s) = if s > 0.85 then Feedback.correct
      else if s > 0.6 then Feedback.partialCredit else Feedback.incorrect := rfl

theorem grade_spec :
    grade none = Feedback.unscored ∧
    (∀ s : ℝ, 0.85 < s → grade (some s) = Feedback.correct) ∧
    (∀ s : ℝ, 0.6 < s → s ≤ 0.85 → grade (some s) = Feedback.partialCredit) ∧
    (∀ s : ℝ, s ≤ 0.6 → grade (some s) = Feedback.incorrect) ∧
    grade (some (0.85 : ℝ)) = Feedback.partialCredit ∧
    grade (some (0.6 : ℝ)) = Feedback.incorrect := by
  refine ⟨rfl, ?_, ?_, ?_, ?_, ?_⟩
  · intro s h
    rw [grade_some, if_pos (show s > 0.85 from h)]
  · intro s h1 h2
    rw [grade_some, if_neg (not_lt.mpr h2), if_pos (show s > 0.6 from h1)]
  · intro s h
    rw [grade_some, if_neg (not_lt.mpr (by linarith : s ≤ 0.85)), if_neg (not_lt.mpr h)]
  · rw [grade_some, if_neg (by norm_num : ¬ ((0.85 : ℝ) > 0.85)),
      if_pos (by norm_num : (0.85 : ℝ) > 0.6)]
  · rw [grade_some, if_neg (by norm_num : ¬ ((0.6 : ℝ) > 0.85)),
      if_neg (by norm_num : ¬ ((0.6 : ℝ) > 0.6))]

/-- Witness for C2 at the spec's concrete sample points 0.9, 0.7 and 0.3. -/
theorem grade_spec_witness :
    (0.85 : ℝ) < 0.9 ∧ grade (some (0.9 : ℝ)) = Feedback.correct ∧
    (0.6 : ℝ) < 0.7 ∧ (0.7 : ℝ) ≤ 0.85 ∧ grade (some (0.7 : ℝ)) = Feedback.partialCredit ∧
    (0.3 : ℝ) ≤ 0.6 ∧ grade (some (0.3 : ℝ)) = Feedback.incorrect :=
  ⟨by norm_num, grade_spec.2.1 0.9 (by norm_num), by norm_num, by norm_num,
    grade_spec.2.2.1 0.7 (by norm_num) (by norm_num), by norm_num,
    grade_spec.2.2.2.1 0.3 (by norm_num)⟩

/-! ### Lemmas about the retriever -/

theorem zip_self_map {α β : Type} (l : List α) (f : α → β) :
    l.zip (l.map f) = l.map (fun c => (c, f c)) := by
  induction l with
  | nil => rfl
  | cons x xs ih => simp [List.zip_cons_cons, ih]

theorem scoreDesc_trans (a b c : ScoredChunk) :
    scoreDesc a b → scoreDesc b c → scoreDesc a c := by
  simp only [scoreDesc, decide_eq_true_eq]
  exact fun h1 h2 => le_trans h2 h1

theorem scoreDesc_total (a b : ScoredChunk) : scoreDesc a b || scoreDesc b a := by
  simp only [scoreDesc, Bool.or_eq_true, decide_eq_true_eq]
  exact le_total b.score a.score

theorem mem_scoreLoop (fp : String) (e : List ℝ) :
    ∀ (l : List (String × Option (List ℝ))) (idx : Nat) (x : ScoredChunk),
      x ∈ scoreLoop fp e idx l ↔
        ∃ j ch em, l[j]? = some (ch, some em) ∧
          x = ⟨idx + j, basename fp, ch, cosine_sim e em⟩ := by
  intro l
  induction l with
  | nil =>
    intro idx x
    simp [scoreLoop]
  | cons p rest ih =>
    intro idx x
    rcases p with ⟨ch0, emb0⟩
    cases emb0 with
    | none =>
      simp only [scoreLoop]
      rw [ih (idx + 1) x]
      constructor
      · rintro ⟨j, ch, em, hj, hx⟩
        exact ⟨j + 1, ch, em, by simpa using hj, by rw [hx]; congr 1; omega⟩
      · rintro ⟨j, ch, em, hj, hx⟩
        cases j with
        | zero => simp at hj
        | succ j =>
          exact ⟨j, ch, em, by simpa using hj, by rw [hx]; congr 1; omega⟩
    | some em0 =>
      simp only [scoreLoop, List.mem_cons]
      rw [ih (idx + 1) x]
      constructor
      · rintro (hx | ⟨j, ch, em, hj, hx⟩)
        · exact ⟨0, ch0, em0, by simp, by rw [hx]; congr 1⟩
        · exact ⟨j + 1, ch, em, by simpa using hj, by rw [hx]; congr 1; omega⟩
      · rintro ⟨j, ch, em, hj, hx⟩
        cases j with
        | zero =>
          left
          simp only [List.getElem?_cons_zero, Option.some.injEq, Prod.mk.injEq] at hj
          rcases hj with ⟨h1, h2⟩
          subst h1
          subst h2
          rw [hx]
          simp
        | succ j =>
          right
          exact ⟨j, ch, em, by simpa using hj, by rw [hx]; congr 1; omega⟩

theorem scoreLoop_id_ge (fp : String) (e : List ℝ)
    (l : List (String × Option (List ℝ))) (idx : Nat) (x : ScoredChunk)
    (hx : x ∈ scoreLoop fp e idx l) : idx ≤ x.chunk_id := by
  rcases (mem_scoreLoop fp e l idx x).mp hx with ⟨j, ch, em, _, hxe⟩
  rw [hxe]
  exact Nat.le_add_right idx j

theorem scoreLoop_pairwise (fp : String) (e : List ℝ) :
    ∀ (l : List (String × Option (List ℝ))) (idx : Nat),
      (scoreLoop fp e idx l).Pairwise (fun a b => a.chunk_id < b.chunk_id) := by
  intro l
  induction l with
  | nil => intro idx; simp [scoreLoop]
  | cons p rest ih =>
    intro idx
    rcases p with ⟨ch0, emb0⟩
    cases emb0 with
    | none => simpa [scoreLoop] using ih (idx + 1)
    | some em0 =>
      simp only [scoreLoop, List.pairwise_cons]
      refine ⟨?_, ih (idx + 1)⟩
      intro b hb
      have := scoreLoop_id_ge fp e rest (idx + 1) b hb
      omega

theorem scoreLoop_id_inj (fp : String) (e : List ℝ)
    (l : List (String × Option (List ℝ))) (idx : Nat) (x y : ScoredChunk)
    (hx : x ∈ scoreLoop fp e idx l) (hy : y ∈ scoreLoop fp e idx l)
    (hid : x.chunk_id = y.chunk_id) : x = y := by
  rcases (mem_scoreLoop fp e l idx x).mp hx with ⟨jx, chx, emx, hjx, hxe⟩
  rcases (mem_scoreLoop fp e l idx y).mp hy with ⟨jy, chy, emy, hjy, hye⟩
  have hj : jx = jy := by
    rw [hxe, hye] at hid
    simpa using hid
  subst hj
  rw [hjx] at hjy
  simp only [Option.some.injEq, Prod.mk.injEq] at hjy
  rcases hjy with ⟨h1, h2⟩
  subst h1
  subst h2
  rw [hxe, hye]

theorem scoreLoop_eq_nil_iff (fp : String) (e : List ℝ) :
    ∀ (l : List (String × Option (List ℝ))) (idx : Nat),
      scoreLoop fp e idx l = [] ↔ ∀ p ∈ l, p.2 = none := by
  intro l
  induction l with
  | nil => intro idx; simp [scoreLoop]
  | cons p rest ih =>
    intro idx
    rcases p with ⟨ch0, emb0⟩
    cases emb0 with
    | none =>
      simp only [scoreLoop]
      rw [ih (idx + 1)]
      constructor
      · intro h p hp
        rcases List.mem_cons.mp hp with h0 | h0
        · rw [h0]
        · exact h p h0
      · intro h p hp
        exact h p (List.mem_cons_of_mem _ hp)
    | some em0 => simp [scoreLoop]

theorem scoreLoop_nodup (fp : String) (e : List ℝ)
    (l : List (String × Option (List ℝ))) (idx : Nat) :
    (scoreLoop fp e idx l).Nodup := by
  refine (scoreLoop_pairwise fp e l idx).imp ?_
  intro a b hab heq
  rw [heq] at hab
  exact lt_irrefl _ hab

theorem pair_sublist_of_pairwise_lt {α : Type} (f : α → Nat) :
    ∀ (l : List α), l.Pairwise (fun a b => f a < f b) →
      ∀ a b, a ∈ l → b ∈ l → f a < f b → List.Sublist [a, b] l := by
  intro l
  induction l with
  | nil => intro _ a b ha; exact absurd ha (List.not_mem_nil a)
  | cons x rest ih =>
    intro hp a b ha hb hfab
    rcases List.pairwise_cons.mp hp with ⟨hx, hrest⟩
    rcases List.mem_cons.mp ha with ha0 | ha0
    · rcases List.mem_cons.mp hb with hb0 | hb0
      · exfalso
        rw [ha0, hb0] at hfab
        exact lt_irrefl _ hfab
      · rw [ha0]
        exact List.Sublist.cons₂ x (List.singleton_sublist.mpr hb0)
    · rcases List.mem_cons.mp hb with hb0 | hb0
      · exfalso
        have := hx a ha0
        rw [hb0] at hfab
        omega
      · exact List.Sublist.cons x (ih hrest a b ha0 hb0 hfab)

theorem eq_of_sublist_pair_both {α : Type} :
    ∀ (l : List α), l.Nodup → ∀ a b, List.Sublist [a, b] l → List.Sublist [b, a] l → a = b := by
  intro l
  induction l with
  | nil =>
    intro _ a b hab
    exact absurd (hab.subset (List.mem_cons_self a [b])) (List.not_mem_nil a)
  | cons x rest ih =>
    intro hn a b hab hba
    rcases List.nodup_cons.mp hn with ⟨hx, hrest⟩
    rcases List.sublist_cons_iff.mp hab with h1 | ⟨r1, he1, hs1⟩
    · rcases List.sublist_cons_iff.mp hba with h2 | ⟨r2, he2, hs2⟩
      · exact ih hrest a b h1 h2
      · injection he2 with hbx hr2
        exfalso
        apply hx
        rw [← hbx]
        exact h1.subset (by simp)
    · injection he1 with hax hr1
      rcases List.sublist_cons_iff.mp hba with h2 | ⟨r2, he2, hs2⟩
      · exfalso
        apply hx
        rw [← hax]
        exact h2.subset (by simp)
      · injection he2 with hbx hr2
        rw [hax, hbx]

theorem retrieveM_none (embed : String → Option (List ℝ)) (r : FileRAGRetriever)
    (query : String) (top_k : Int) (h : embed query = none) :
    retrieveM embed r query top_k = (r, []) := by
  unfold retrieveM
  rw [h]

theorem retrieveM_some (embed : String → Option (List ℝ)) (r : FileRAGRetriever)
    (query : String) (top_k : Int) (e : List ℝ) (h : embed query = some e) :
    retrieveM embed r query top_k =
      (r, pySliceTo ((scoreLoop r.filepath e 0 (r.chunks.zip r.embeddings)).mergeSort scoreDesc)
        top_k) := by
  unfold retrieveM
  rw [h]

/-!
### Claim C10
-/

/-- C10: `retrieve` is read-only on the retriever's state: the file path,
chunk list, embedding list and embedding-model identifier are all unchanged by
a call (only the transient scored list is produced). -/
theorem retrieve_readonly (embed : String → Option (List ℝ)) (r : FileRAGRetriever)
    (query : String) (top_k : Int) :
    (retrieveM embed r query top_k).1.filepath = r.filepath ∧
    (retrieveM embed r query top_k).1.chunks = r.chunks ∧
    (retrieveM embed r query top_k).1.embeddings = r.embeddings ∧
    (retrieveM embed r query top_k).1.embed_model = r.embed_model ∧
    (retrieveM embed r query top_k).1 = r := by
  have h : (retrieveM embed r query top_k).1 = r := by
    cases hq : embed query with
    | none => rw [retrieveM_none embed r query top_k hq]
    | some e => rw [retrieveM_some embed r query top_k e hq]
  exact ⟨by rw [h], by rw [h], by rw [h], by rw [h], h⟩

/-!
### Claim C7
-/

/-- C7: after construction the embedding list is exactly the chunk list mapped
through the embedding oracle — same length, and the entry at position `i` is
`embed chunks[i]` (so it is absent exactly when embedding chunk `i` failed,
without shifting or dropping the chunk) — and the only subsequent operation,
`retrieve`, leaves the state (hence the invariant) untouched. -/
theorem retriever_embeddings_invariant (embed : String → Option (List ℝ))
    (fp text : String) :
    (loadRetriever embed fp text).embeddings.length =
      (loadRetriever embed fp text).chunks.length ∧
    (∀ i : Nat, (loadRetriever embed fp text).embeddings[i]? =
      ((loadRetriever embed fp text).chunks[i]?).map embed) ∧
    (∀ (query : String) (top_k : Int),
      (retrieveM embed (loadRetriever embed fp text) query top_k).1 =
        loadRetriever embed fp text) := by
  refine ⟨?_, ?_, ?_⟩
  · simp [loadRetriever]
  · intro i
    simp [loadRetriever, List.getElem?_map]
  · intro query top_k
    cases hq : embed query with
    | none => rw [retrieveM_none _ _ _ _ hq]
    | some e => rw [retrieveM_some _ _ _ _ _ hq]

/-!
### Claim C6
-/

/-- C6: `retrieve` (a total function here, modelling that the source catches
embedding failures and never raises) returns the empty sequence when the query
embedding is absent, and when every chunk embedding is absent; conversely with
`top_k ≥ 1` an empty result can only arise from those failure cases. -/
theorem retrieve_empty_cases (embed : String → Option (List ℝ))
    (fp text query : String) (top_k : Int) (r : FileRAGRetriever)
    (hr : r = loadRetriever embed fp text) :
    (embed query = none → (retrieveM embed r query top_k).2 = []) ∧
    ((∀ ch ∈ r.chunks, embed ch = none) → (retrieveM embed r query top_k).2 = []) ∧
    (1 ≤ top_k → (retrieveM embed r query top_k).2 = [] →
      embed query = none ∨ ∀ ch ∈ r.chunks, embed ch = none) := by
  have hre : r.embeddings = r.chunks.map embed := by rw [hr]; rfl
  have hzip : r.chunks.zip r.embeddings = r.chunks.map (fun c => (c, embed c)) := by
    rw [hre]
    exact zip_self_map r.chunks embed
  refine ⟨?_, ?_, ?_⟩
  · intro hq
    rw [retrieveM_none _ _ _ _ hq]
  · intro hall
    cases hq : embed query with
    | none => rw [retrieveM_none _ _ _ _ hq]
    | some e =>
      rw [retrieveM_some _ _ _ _ _ hq]
      have hnil : scoreLoop r.filepath e 0 (r.chunks.zip r.embeddings) = [] := by
        rw [scoreLoop_eq_nil_iff]
        intro p hp
        rw [hzip] at hp
        rcases List.mem_map.mp hp with ⟨c, hc, hpc⟩
        rw [← hpc]
        exact hall c hc
      rw [hnil]
      simp [pySliceTo]
  · intro hk hres
    cases hq : embed query with
    | none => exact Or.inl rfl
    | some e =>
      right
      rw [retrieveM_some _ _ _ _ _ hq] at hres
      simp only [pySliceTo] at hres
      have hperm := List.mergeSort_perm
        (scoreLoop r.filepath e 0 (r.chunks.zip r.embeddings)) scoreDesc
      have hscored0 : scoreLoop r.filepath e 0 (r.chunks.zip r.embeddings) = [] := by
        rcases List.take_eq_nil_iff.mp hres with h0 | hnil
        · simp only [sliceIdx] at h0
          rw [if_neg (by omega : ¬ (top_k < 0))] at h0
          have hl := hperm.length_eq
          have hlen0 : ((scoreLoop r.filepath e 0 (r.chunks.zip r.embeddings)).mergeSort
              scoreDesc).length = 0 := by omega
          rw [hlen0] at hl
          exact List.length_eq_zero.mp hl.symm
        · rw [hnil] at hperm
          exact hperm.symm.eq_nil
      intro ch hch
      exact (scoreLoop_eq_nil_iff r.filepath e _ 0).mp hscored0 (ch, embed ch)
        (by rw [hzip]; exact List.mem_map.mpr ⟨ch, hch, rfl⟩)

/-- Witness for C6: with an embedding oracle that always fails, `retrieve`
returns the empty sequence. -/
theorem retrieve_empty_cases_witness :
    ((fun _ : String => (none : Option (List ℝ))) "q" = none) ∧
    (retrieveM (fun _ : String => (none : Option (List ℝ)))
      (loadRetriever (fun _ : String => (none : Option (List ℝ))) "f" "a") "q" 3).2 = [] :=
  ⟨rfl, (retrieve_empty_cases (fun _ : String => (none : Option (List ℝ)))
    "f" "a" "q" 3 _ rfl).1 rfl⟩

/-!
### Claim C1
-/

/-- C1: for a constructed retriever and a query whose embedding succeeds,
`retrieve(query, top_k)` returns at most `top_k` results; every result comes
from a chunk whose embedding is present (indexed by its original position,
carrying its text and cosine score against the query embedding); the results
are sorted descending by score with ties broken by original chunk index
ascending; and every returned score is at least the score of every chunk with
a valid embedding that was not returned. -/
theorem retrieve_topk_spec (embed : String → Option (List ℝ)) (fp text q : String)
    (top_k : Int) (e : List ℝ) (r : FileRAGRetriever) (res : List ScoredChunk)
    (hr : r = loadRetriever embed fp text) (hq : embed q = some e) (hk : 0 ≤ top_k)
    (hres : res = (retrieveM embed r q top_k).2) :
    ((res.length : Int) ≤ top_k) ∧
    (∀ x ∈ res, ∃ em, r.chunks[x.chunk_id]? = some x.text ∧
      r.embeddings[x.chunk_id]? = some (some em) ∧ x.score = cosine_sim e em) ∧
    res.Pairwise (fun a b =>
      b.score < a.score ∨ (a.score = b.score ∧ a.chunk_id < b.chunk_id)) ∧
    (∀ (i : Nat) (em : List ℝ), r.embeddings[i]? = some (some em) →
      (∀ x ∈ res, x.chunk_id ≠ i) → ∀ x ∈ res, cosine_sim e em ≤ x.score) := by
  have hre : r.embeddings = r.chunks.map embed := by rw [hr]; rfl
  have hzip : r.chunks.zip r.embeddings = r.chunks.map (fun c => (c, embed c)) := by
    rw [hre]
    exact zip_self_map r.chunks embed
  set scored := scoreLoop r.filepath e 0 (r.chunks.zip r.embeddings) with hscored_def
  set sorted := scored.mergeSort scoreDesc with hsorted_def
  have hres2 : res = sorted.take (sliceIdx sorted.length top_k) := by
    rw [hres, retrieveM_some _ _ _ _ _ hq]
    rfl
  have hperm : sorted.Perm scored := List.mergeSort_perm scored scoreDesc
  have hmemscored : ∀ x : ScoredChunk, x ∈ scored ↔
      ∃ j ch em, (r.chunks.zip r.embeddings)[j]? = some (ch, some em) ∧
        x = ⟨j, basename r.filepath, ch, cosine_sim e em⟩ := by
    intro x
    have h := mem_scoreLoop r.filepath e (r.chunks.zip r.embeddings) 0 x
    simpa using h
  have hzipget : ∀ j : Nat, (r.chunks.zip r.embeddings)[j]? =
      (r.chunks[j]?).map (fun c => (c, embed c)) := by
    intro j
    rw [hzip, List.getElem?_map]
  have hsorted_le : sorted.Pairwise (fun a b => b.score ≤ a.score) := by
    have h := List.sorted_mergeSort scoreDesc_trans scoreDesc_total scored
    exact h.imp (fun hab => by simpa [scoreDesc] using hab)
  have hnodup : sorted.Nodup := hperm.nodup_iff.mpr (scoreLoop_nodup _ _ _ _)
  refine ⟨?_, ?_, ?_, ?_⟩
  · rw [hres2]
    have hlen := List.length_take_le (sliceIdx sorted.length top_k) sorted
    have hsl : (sliceIdx sorted.length top_k : Int) ≤ top_k := by
      simp only [sliceIdx]
      rw [if_neg (by omega : ¬ (top_k < 0))]
      omega
    omega
  · intro x hx
    rw [hres2] at hx
    have hxs : x ∈ sorted := List.mem_of_mem_take hx
    have hxsc : x ∈ scored := hperm.mem_iff.mp hxs
    rcases (hmemscored x).mp hxsc with ⟨j, ch, em, hj, hxe⟩
    rw [hzipget j] at hj
    rcases Option.map_eq_some'.mp hj with ⟨c, hc, hfc⟩
    simp only [Prod.mk.injEq] at hfc
    subst hxe
    refine ⟨em, ?_, ?_, rfl⟩
    · show r.chunks[j]? = some ch
      rw [hc, hfc.1]
    · show r.embeddings[j]? = some (some em)
      rw [hre, List.getElem?_map, hc]
      simp [hfc.2]
  · have hlex : sorted.Pairwise (fun a b =>
        b.score < a.score ∨ (a.score = b.score ∧ a.chunk_id < b.chunk_id)) := by
      rw [List.pairwise_iff_forall_sublist]
      intro a b hab
      have hle : b.score ≤ a.score := List.pairwise_iff_forall_sublist.mp hsorted_le hab
      rcases lt_or_eq_of_le hle with hlt | heq
      · exact Or.inl hlt
      · right
        refine ⟨heq.symm, ?_⟩
        have ha : a ∈ scored := hperm.mem_iff.mp (hab.subset (by simp))
        have hb : b ∈ scored := hperm.mem_iff.mp (hab.subset (by simp))
        rcases Nat.lt_trichotomy a.chunk_id b.chunk_id with h | h | h
        · exact h
        · exfalso
          have hab_eq : a = b := scoreLoop_id_inj _ _ _ _ a b ha hb h
          rw [hab_eq] at hab
          exact (List.pairwise_iff_forall_sublist.mp hnodup hab) rfl
        · exfalso
          have hpair : List.Sublist [b, a] scored :=
            pair_sublist_of_pairwise_lt (fun s => s.chunk_id) scored
              (scoreLoop_pairwise _ _ _ _) b a hb ha h
          have hba : List.Sublist [b, a] sorted :=
            List.pair_sublist_mergeSort scoreDesc_trans scoreDesc_total
              (by simp [scoreDesc, heq]) hpair
          have heq2 := eq_of_sublist_pair_both sorted hnodup a b hab hba
          rw [heq2] at h
          exact lt_irrefl _ h
    rw [hres2]
    exact hlex.sublist (List.take_sublist _ _)
  · intro i em hiemb hnotin x hx
    rw [hre, List.getElem?_map] at hiemb
    rcases Option.map_eq_some'.mp hiemb with ⟨c, hc, hce⟩
    have hy : (⟨i, basename r.filepath, c, cosine_sim e em⟩ : ScoredChunk) ∈ scored := by
      refine (hmemscored _).mpr ⟨i, c, em, ?_, rfl⟩
      rw [hzipget i, hc]
      simp [hce]
    have hysorted : (⟨i, basename r.filepath, c, cosine_sim e em⟩ : ScoredChunk) ∈ sorted :=
      hperm.mem_iff.mpr hy
    have hymem : (⟨i, basename r.filepath, c, cosine_sim e em⟩ : ScoredChunk) ∈
        sorted.take (sliceIdx sorted.length top_k) ++
          sorted.drop (sliceIdx sorted.length top_k) := by
      rw [List.take_append_drop]
      exact hysorted
    rcases List.mem_append.mp hymem with hyt | hyd
    · exfalso
      exact hnotin _ (hres2 ▸ hyt) rfl
    · have hp2 : (sorted.take (sliceIdx sorted.length top_k) ++
          sorted.drop (sliceIdx sorted.length top_k)).Pairwise
            (fun a b => b.score ≤ a.score) := by
        rw [List.take_append_drop]
        exact hsorted_le
      have hcross := (List.pairwise_append.mp hp2).2.2
      have hxt : x ∈ sorted.take (sliceIdx sorted.length top_k) := hres2 ▸ hx
      exact hcross x hxt _ hyd

/-- Witness for C1 with a concrete one-chunk retriever and a succeeding
query embedding. -/
theorem retrieve_topk_spec_witness :
    ((fun _ : String => some [(1 : ℝ)]) "q" = some [(1 : ℝ)]) ∧ ((0 : Int) ≤ 3) ∧
    (((retrieveM (fun _ : String => some [(1 : ℝ)])
      (loadRetriever (fun _ : String => some [(1 : ℝ)]) "f" "a") "q" 3).2.length : Int) ≤ 3) :=
  ⟨rfl, by norm_num,
    (retrieve_topk_spec (fun _ : String => some [(1 : ℝ)]) "f" "a" "q" 3 [(1 : ℝ)] _ _
      rfl rfl (by norm_num) rfl).1⟩

/-!
### Claim C8
-/

/-- C8: on any answer submission in which the generation-service call raises
(`Except.error`), the conversation history is returned exactly as it was (no
turn appended), the error is written to the response log, and an error notice
is surfaced to the user. -/
theorem submit_generation_failure (embed : String → Option (List ℝ))
    (gen : String → Except String String) (r : FileRAGRetriever)
    (question user_answer : String) (conversation : List Turn) (emsg : String)
    (hans : ¬ (pyStrip user_answer = ""))
    (hret : ((retrieveM embed r question 3).2).isEmpty = false)
    (hgen : gen (build_teaching_prompt question (retrieveM embed r question 3).2) =
      Except.error emsg) :
    (submitAnswer embed gen r question user_answer conversation).conversation =
      conversation ∧
    (submitAnswer embed gen r question user_answer conversation).notices =
      [Notice.error ("Error generating answer: " ++ emsg)] ∧
    (submitAnswer embed gen r question user_answer conversation).log =
      ["ERROR Question: " ++ question ++ "\nError: " ++ emsg] := by
  have h1 : submitAnswer embed gen r question user_answer conversation =
      { conversation := conversation
        notices := [Notice.error ("Error generating answer: " ++ emsg)]
        log := ["ERROR Question: " ++ question ++ "\nError: " ++ emsg] } := by
    unfold submitAnswer
    rw [if_neg hans]
    simp only [hret, hgen]
    rfl
  exact ⟨by rw [h1], by rw [h1], by rw [h1]⟩

/-- Witness for C8 with a one-chunk retriever state, an embedding oracle that
always succeeds, and a generation oracle that always raises. -/
theorem submit_generation_failure_witness :
    ¬ (pyStrip "x" = "") ∧
    ((retrieveM (fun _ : String => some [(1 : ℝ)])
      ⟨"f", "m", ["a"], [some [(1 : ℝ)]]⟩ "q" 3).2).isEmpty = false ∧
    (fun _ : String => (Except.error "boom" : Except String String))
      (build_teaching_prompt "q" (retrieveM (fun _ : String => some [(1 : ℝ)])
        ⟨"f", "m", ["a"], [some [(1 : ℝ)]]⟩ "q" 3).2) = Except.error "boom" ∧
    (submitAnswer (fun _ : String => some [(1 : ℝ)])
      (fun _ : String => (Except.error "boom" : Except String String))
      ⟨"f", "m", ["a"], [some [(1 : ℝ)]]⟩ "q" "x" []).conversation = [] := by
  have hret : ((retrieveM (fun _ : String => some [(1 : ℝ)])
      ⟨"f", "m", ["a"], [some [(1 : ℝ)]]⟩ "q" 3).2).isEmpty = false := by
    rw [retrieveM_some (fun _ : String => some [(1 : ℝ)])
      ⟨"f", "m", ["a"], [some [(1 : ℝ)]]⟩ "q" 3 [(1 : ℝ)] rfl]
    simp [scoreLoop, pySliceTo, sliceIdx]
  refine ⟨by decide, hret, rfl, ?_⟩
  exact (submit_generation_failure (fun _ : String => some [(1 : ℝ)])
    (fun _ : String => (Except.error "boom" : Except String String))
    ⟨"f", "m", ["a"], [some [(1 : ℝ)]]⟩ "q" "x" [] "boom" (by decide) hret rfl).1

end NCERT
